import Mathlib

/-!
Verification of the `package-size-inline` extension core
(`src/extension.ts`) against its natural-language specification.

The TypeScript source is shallowly embedded as executable Lean
definitions:

* JSON values are the inductive `Json`; JavaScript numbers that occur in
  registry bodies are modelled as integers (registry `unpackedSize`
  fields are integral byte counts).
* The mutable process-wide `Map`s (`sizeCache`, `decorationTypeCache`)
  become explicit association lists threaded through each function.
* `async` functions returning promises become pure functions that also
  return the list of outstanding network requests (resp. a flag for
  filesystem access) they issue, so that claims about how many
  underlying lookups happen are statable.
* `fetch` and the filesystem are abstract collaborators: a `Net`
  function from symbolic requests to responses, and an `FsNode` tree.
  Registry URLs are modelled symbolically (`Request.meta name`,
  `Request.exact name version`) rather than via string concatenation
  with `encodeURIComponent`, which is injective on the names involved.
* `JSON.parse` is a host builtin, so the parser is abstracted as a
  `String → Option Json` parameter (`none` models a parse exception).
-/

namespace PkgSize

/-! ### JSON values (bodies returned by `res.json()` / `JSON.parse`) -/

inductive Json where
  | null
  | bool (b : Bool)
  | num (n : Int)
  | str (s : String)
  | arr (elems : List Json)
  | obj (fields : List (String × Json))
deriving Inhabited

/-- JavaScript truthiness of a JSON value (`NaN` cannot arise in the
integer model; objects and arrays are always truthy). -/
def jTruthy : Json → Bool
  | .null => false
  | .bool b => b
  | .num n => n != 0
  | .str s => s != ""
  | .arr _ => true
  | .obj _ => true

/-! ### `formatBytes` (src/extension.ts lines 32–40)

```ts
function formatBytes(bytes: number): string {
  if (bytes >= 1024 * 1024) { return (bytes / (1024 * 1024)).toFixed(1) + ' MB'; }
  if (bytes >= 1024) { return (bytes / 1024).toFixed(1) + ' kB'; }
  return bytes + ' B';
}
```

For an integer `bytes` below `2^53`, the double divisions by the powers
of two `1024` and `1048576` are exact, so `toFixed(1)` is applied to the
exact rational `bytes / den`.  `Number.prototype.toFixed(1)` picks the
integer `n` minimising `|n / 10 - x|`, ties towards the larger `n`
(round half up for the non-negative values reached in these branches),
and prints `n` with one decimal digit. -/

/-- `x.toFixed(1)` for the exact non-negative rational `num / den`
(`den > 0`): round `10 * num / den` to the nearest integer, half up. -/
def jsToFixed1 (num den : Nat) : String :=
  let n := (20 * num + den) / (2 * den)
  toString (n / 10) ++ "." ++ toString (n % 10)

def formatBytes (bytes : Int) : String :=
  if bytes ≥ 1024 * 1024 then jsToFixed1 bytes.toNat (1024 * 1024) ++ " MB"
  else if bytes ≥ 1024 then jsToFixed1 bytes.toNat 1024 ++ " kB"
  else toString bytes ++ " B"

/-! ### `isExactVersion` (src/extension.ts lines 103–105)

```ts
function isExactVersion(version: string): boolean {
  return /^\d+\.\d+\.\d+(-[^+]+)?(\+.*)?$/.test(version) || version === '*';
}
```

The regex is implemented by maximal munch, which is faithful here:
each `\d+` is followed by a non-digit (`.`, `-`, `+` or end), and
`[^+]+` is followed by `+` or end, so the greedy extents are forced.
JavaScript `\d` is `[0-9]` (= `Char.isDigit`); `.` in `\+.*` does not
match the four line terminators; `$` (no `m` flag) matches only at the
very end of the string. -/

/-- The four JavaScript line terminators, which `.` does not match. -/
def lineTerm (c : Char) : Bool :=
  c == '\n' || c == '\r' || c == Char.ofNat 0x2028 || c == Char.ofNat 0x2029

/-- Matcher for the regex suffix `(-[^+]+)?(\+.*)?$` after the third
digit run. -/
def matchTail (cs : List Char) : Bool :=
  match cs with
  | [] => true
  | c :: rest =>
    if c = '+' then rest.all (fun d => !lineTerm d)
    else if c = '-' then
      match rest.takeWhile (fun d => d != '+'), rest.dropWhile (fun d => d != '+') with
      | [], _ => false
      | _ :: _, [] => true
      | _ :: _, _ :: bt => bt.all (fun d => !lineTerm d)
    else false

/-- Consume a literal `'.'` at the head. -/
def afterDot : List Char → Option (List Char)
  | c :: rest => if c = '.' then some rest else none
  | [] => none

/-- Matcher for `^\d+\.\d+\.\d+(-[^+]+)?(\+.*)?$` on a char list. -/
def matchSemver (cs : List Char) : Bool :=
  if cs.takeWhile Char.isDigit = [] then false
  else
    (afterDot (cs.dropWhile Char.isDigit)).elim false fun r2 =>
      if r2.takeWhile Char.isDigit = [] then false
      else
        (afterDot (r2.dropWhile Char.isDigit)).elim false fun r4 =>
          if r4.takeWhile Char.isDigit = [] then false
          else matchTail (r4.dropWhile Char.isDigit)

def isExactVersion (version : String) : Bool :=
  matchSemver version.data || version == "*"

/-- The guard `version && version !== '*' && isExactVersion(version)`
from `fetchSize` (line 171); an empty string is falsy. -/
def useExact (version : String) : Bool :=
  version != "" && version != "*" && isExactVersion version

/-! ### Document positions

`vscode.TextDocument` positions: `positionAt(offset).line` counts line
breaks before the offset, and `lineAt(line).range.end` is the position
just past the last character of the line, excluding the end-of-line
sequence.  Documents are modelled with `'\n'` line endings and columns
counted in characters (the claims under verification exercise neither
CRLF endings nor surrogate pairs, where VS Code counts UTF-16 units). -/

structure Pos where
  line : Nat
  col : Nat
deriving DecidableEq, Repr

structure Range where
  start : Pos
  stop : Pos
deriving DecidableEq, Repr

structure DepEntry where
  name : String
  version : String
  range : Range
deriving DecidableEq, Repr

/-- `doc.positionAt(off).line`: number of line breaks before `off`. -/
def lineOfOffset (text : String) (off : Nat) : Nat :=
  ((text.data.take off).filter (fun c => c == '\n')).length

/-- Split a character list at every occurrence of `sep`
(`String.splitOn` with a one-character separator). -/
def splitOnChar (sep : Char) : List Char → List (List Char)
  | [] => [[]]
  | c :: rest =>
    if c = sep then [] :: splitOnChar sep rest
    else
      match splitOnChar sep rest with
      | l :: ls => (c :: l) :: ls
      | [] => [[c]]

/-- `String.startsWith`. -/
def strStartsWith (pre s : String) : Bool :=
  pre.data.isPrefixOf s.data

/-- The document's lines: the text split at each `'\n'`. -/
def splitLines (cs : List Char) : List (List Char) :=
  splitOnChar '\n' cs

/-- Length of line `ln` of the document text, excluding the break. -/
def lineLength (text : String) (ln : Nat) : Nat :=
  ((splitLines text.data).getD ln []).length

/-- `doc.lineAt(ln).range.end`. -/
def lineEndPos (text : String) (ln : Nat) : Pos :=
  ⟨ln, lineLength text ln⟩

/-! ### Raw-text scan (the regex loop of `parseDepsFromDocument`,
src/extension.ts lines 68–90)

The global regex `/"([^"]+)"\s*:\s*"([^"]*)"/g` is re-executed from the
end of each match; `exec` finds the leftmost match at or after
`lastIndex`.  Maximal munch is faithful: `[^"]±` runs are delimited by
the next `"`, and `\s*` runs are followed by `:` resp. `"`, which are
not whitespace. -/

/-- JavaScript `\s`: ASCII whitespace plus the Unicode space
characters, line separators and the BOM. -/
def jsWhitespace (c : Char) : Bool :=
  c == ' ' || c == '\t' || c == '\n' || c == '\r' ||
  c == Char.ofNat 0x0b || c == Char.ofNat 0x0c ||
  c == Char.ofNat 0xa0 || c == Char.ofNat 0x1680 ||
  (0x2000 ≤ c.toNat && c.toNat ≤ 0x200a) ||
  c == Char.ofNat 0x2028 || c == Char.ofNat 0x2029 ||
  c == Char.ofNat 0x202f || c == Char.ofNat 0x205f ||
  c == Char.ofNat 0x3000 || c == Char.ofNat 0xfeff

/-- Try the pattern anchored at the head of `cs`; on success return the
captured key, the captured value and the length of the whole match. -/
def matchPairAt (cs : List Char) : Option (String × String × Nat) :=
  match cs with
  | '"' :: r0 =>
    match r0.takeWhile (fun c => c != '"'), r0.dropWhile (fun c => c != '"') with
    | [], _ => none
    | nm, '"' :: r1 =>
      let w1 := r1.takeWhile jsWhitespace
      match r1.dropWhile jsWhitespace with
      | ':' :: r2 =>
        let w2 := r2.takeWhile jsWhitespace
        match r2.dropWhile jsWhitespace with
        | '"' :: r3 =>
          let v := r3.takeWhile (fun c => c != '"')
          match r3.dropWhile (fun c => c != '"') with
          | '"' :: _ =>
            some (nm.asString, v.asString,
              nm.length + w1.length + w2.length + v.length + 5)
          | _ => none
        | _ => none
      | _ => none
    | _, _ => none
  | _ => none

/-- One `re.exec` round after another: try the pattern at each
position, and continue after the end of each match.  Every match
consumes at least one character, so fuel `cs.length` never runs out. -/
def scanAux : Nat → List Char → Nat → List (Nat × String × String)
  | 0, _, _ => []
  | _ + 1, [], _ => []
  | fuel + 1, c :: rest, idx =>
    match matchPairAt (c :: rest) with
    | some (nm, v, len) =>
      (idx, nm, v) :: scanAux fuel ((c :: rest).drop len) (idx + len)
    | none => scanAux fuel rest (idx + 1)

/-- All `"key": "value"` matches of the document text, with the offset
of each match start. -/
def scanMatches (text : String) : List (Nat × String × String) :=
  scanAux text.data.length text.data 0

/-! ### The `in` operator and field access on parsed JSON -/

/-- Own property names of `Object.prototype`: the JavaScript `in`
operator walks the prototype chain, so these names are `in` every plain
object — including the `{}` fallback of `json.dependencies || {}`. -/
def objectProtoProps : List String :=
  ["constructor", "hasOwnProperty", "isPrototypeOf",
   "propertyIsEnumerable", "toLocaleString", "toString", "valueOf",
   "__defineGetter__", "__defineSetter__", "__lookupGetter__",
   "__lookupSetter__", "__proto__"]

/-- A property key that is a canonical array index (`"0"`, `"17"`, …). -/
def jsIndexKey (s : String) : Option Nat :=
  match s.toNat? with
  | some n => if toString n == s then some n else none
  | none => none

/-- Plain (own-property) field access `json.k` on a parsed JSON value;
the keys accessed this way in the source (`dependencies`,
`devDependencies`, `versions`, `dist-tags`, `latest`, `dist`,
`unpackedSize`) are not inherited from any prototype. -/
def jGetField (j : Json) (k : String) : Option Json :=
  match j with
  | .obj fields => fields.lookup k
  | _ => none

/-- `name in X` where `X` is `declaredField || {}` (line 73/81 of the
source).  `none` models the `TypeError` thrown when `declaredField` is
a truthy primitive.  For arrays, own index properties and `length` are
modelled; `Array.prototype` method names beyond `Object.prototype`'s
are not enumerated (no claim exercises array-valued dependency maps).
A falsy field (`undefined`, `null`, `false`, `0`, `""`) falls back to
`{}`, whose `in`-membership is exactly the `Object.prototype` chain. -/
def jsMem (name : String) (declaredField : Option Json) : Option Bool :=
  match declaredField with
  | none => some (objectProtoProps.contains name)
  | some .null => some (objectProtoProps.contains name)
  | some (.bool false) => some (objectProtoProps.contains name)
  | some (.bool true) => none
  | some (.num n) =>
    if n = 0 then some (objectProtoProps.contains name) else none
  | some (.str s) =>
    if s = "" then some (objectProtoProps.contains name) else none
  | some (.obj fields) =>
    some (fields.any (fun f => f.1 == name) || objectProtoProps.contains name)
  | some (.arr es) =>
    some ((match jsIndexKey name with
           | some i => decide (i < es.length)
           | none => name == "length") || objectProtoProps.contains name)

/-! ### `parseDepsFromDocument` (src/extension.ts lines 58–95)

`JSON.parse` is a host builtin, abstracted as the `parse` parameter;
`parse text = none` models the parse exception caught on line 91.
`json.dependencies` on a `null` parse result throws immediately (both
entry arrays still empty), which the `.null` arm reflects.  An `in`
test that throws aborts the loop; the entries already pushed onto the
outer arrays are returned by the `catch`. -/

/-- The entry pushed for a match: a zero-width range at the end of the
line containing the match start, version defaulting to `'*'` when the
matched value is empty (`value || '*'`). -/
def mkEntry (text : String) (m : Nat × String × String) : DepEntry :=
  let le := lineEndPos text (lineOfOffset text m.1)
  { name := m.2.1
    version := if m.2.2 == "" then "*" else m.2.2
    range := ⟨le, le⟩ }

/-- The scan loop: each match is tested against the direct-dependency
set first, then the dev-dependency set. -/
def processMatches (depsF devF : Option Json) (text : String) :
    List (Nat × String × String) → List DepEntry → List DepEntry →
    List DepEntry × List DepEntry
  | [], deps, devs => (deps, devs)
  | m :: rest, deps, devs =>
    match jsMem m.2.1 depsF with
    | none => (deps, devs)
    | some true => processMatches depsF devF text rest (deps ++ [mkEntry text m]) devs
    | some false =>
      match jsMem m.2.1 devF with
      | none => (deps, devs)
      | some true => processMatches depsF devF text rest deps (devs ++ [mkEntry text m])
      | some false => processMatches depsF devF text rest deps devs

def parseDepsFromDocument (parse : String → Option Json) (text : String) :
    List DepEntry × List DepEntry :=
  match parse text with
  | none => ([], [])
  | some .null => ([], [])
  | some j =>
    processMatches (jGetField j ("dependencies")) (jGetField j ("devDependencies"))
      text (scanMatches text) [] []

/-! ### The result cache

`sizeCache` is a process-wide `Map<string, string>`; it is modelled as
an association list read through `List.lookup`, so prepending a binding
is `Map.set`.  Every `set` in the source happens under a preceding
lookup miss for the same key, so no existing binding is ever shadowed
by a different value. -/

abbrev Cache := List (String × String)

/-! ### The registry collaborator

`fetch` is abstract: requests are symbolic (`encodeURIComponent` is
injective on the names involved, so the two URL shapes of the source
correspond exactly to the two constructors).  `none` models a rejected
fetch; `body = none` models `res.json()` throwing on a malformed
body. -/

inductive Request where
  | meta (name : String)
  | exact (name version : String)
deriving DecidableEq, Repr

structure HttpResp where
  ok : Bool
  body : Option Json

abbrev Net := Request → Option HttpResp

/-- `parsePackageSpec` (lines 97–101): split at the first `'@'` at
index ≥ 1; a missing or empty version becomes `'*'`. -/
def parsePackageSpec (spec : String) : String × String :=
  match (spec.data.drop 1).findIdx? (fun c => c == '@') with
  | none => (spec, "*")
  | some i =>
    let cut := i + 1
    let name := (spec.data.take cut).asString
    let ver := (spec.data.drop (cut + 1)).asString
    (name, if ver == "" then "*" else ver)

def isFileDependency (version : String) : Bool :=
  strStartsWith ("file:") version

/-! ### JavaScript property access on untyped response bodies

The registry body is arbitrary JSON, so `data.versions`,
`versions[v]`, `ver?.dist?.unpackedSize` follow JavaScript property
semantics.  `JsVal.protoVal` stands for a member inherited from
`Object.prototype` (e.g. `versions["toString"]`, a function): it is
truthy and has none of the fields the source reads. -/

inductive JsVal where
  | undefined
  | val (j : Json)
  | protoVal
deriving Inhabited

def jsValTruthy : JsVal → Bool
  | .undefined => false
  | .protoVal => true
  | .val j => jTruthy j

/-- Property access `j[k]`.  Primitives and `null` return `undef`: the
keys the source reads exist on no `String`/`Number` prototype, and the
one unguarded access on a possibly-`null` value (`data.versions`)
throws into a `catch` whose `"—"` outcome coincides with the `undef`
path. -/
def jsProp (j : Json) (k : String) : JsVal :=
  match j with
  | .obj fields =>
    match fields.lookup k with
    | some v => .val v
    | none => if objectProtoProps.contains k then .protoVal else .undefined
  | .arr es =>
    match jsIndexKey k with
    | some i =>
      match es.get? i with
      | some v => .val v
      | none => .undefined
    | none =>
      if k == "length" then .val (.num es.length)
      else if objectProtoProps.contains k then .protoVal
      else .undefined
  | _ => .undefined

mutual
/-- JavaScript string conversion of a JSON value used as a property
key.  (`String` of an array maps `null` elements to `""` where this
prints `"null"`; only reachable for array-valued `dist-tags.latest`,
which no claim exercises.) -/
def jsonToKey : Json → String
  | .str s => s
  | .num n => toString n
  | .bool b => cond b ("true") ("false")
  | .null => "null"
  | .obj _ => "[object Object]"
  | .arr es => String.intercalate (",") (jsonToKeyList es)
def jsonToKeyList : List Json → List String
  | [] => []
  | j :: rest => jsonToKey j :: jsonToKeyList rest
end

/-- Key for `versions[versionToUse]`; `undef` never reaches a lookup
(it is falsy), and `protoVal` cannot be a `latest` tag. -/
def jsValKey : JsVal → String
  | .val j => jsonToKey j
  | .undefined => "undefined"
  | .protoVal => ""

/-- `ver?.dist?.unpackedSize`. -/
def distSize (v : JsVal) : JsVal :=
  match v with
  | .undefined => .undefined
  | .protoVal => .undefined
  | .val .null => .undefined
  | .val vj =>
    match jsProp vj ("dist") with
    | .val .null => .undefined
    | .val dj => jsProp dj ("unpackedSize")
    | _ => .undefined

/-- `data['dist-tags']?.latest`. -/
def latestTag (data : Json) : JsVal :=
  match jsProp data ("dist-tags") with
  | .val .null => .undefined
  | .val dt => jsProp dt ("latest")
  | _ => .undefined

/-! ### `fetchSize` (src/extension.ts lines 161–223) -/

/-- The exact-version branch (lines 175–191): look up
`{registry}/{name}/{version}` and read `data?.dist?.unpackedSize`. -/
def exactResult (net : Net) (name version : String) : String :=
  match net (.exact name version) with
  | none => "—"
  | some r =>
    if !r.ok then "—"
    else
      match r.body with
      | none => "—"
      | some data =>
        match distSize (.val data) with
        | .val (.num n) => formatBytes n
        | _ => "—"

/-- Version selection and size extraction of the full-metadata branch
(lines 206–218), given a `versions` value that passed the
`!versions || typeof versions !== 'object'` check. -/
def metaVersions (versions : Json) (latest : JsVal) (version : String) : String :=
  let versionToUse : JsVal :=
    if version == "" || version == "*" then latest else .val (.str version)
  let key2 : String :=
    match latest with
    | .undefined => ""
    | .val .null => ""
    | .val j => jsonToKey j
    | .protoVal => ""
  let ver : JsVal :=
    if jsValTruthy versionToUse then
      let pv := jsProp versions (jsValKey versionToUse)
      if jsValTruthy pv then pv else jsProp versions key2
    else jsProp versions key2
  match distSize ver with
  | .val (.num n) => formatBytes n
  | _ => "—"

/-- The full-metadata branch (lines 193–218): look up
`{registry}/{name}`, check the `versions` field, then select a
version.  Only objects and arrays pass the `typeof` check
(`null` is falsy; an inherited member has `typeof` `"function"`). -/
def metaResult (net : Net) (name version : String) : String :=
  match net (.meta name) with
  | none => "—"
  | some r =>
    if !r.ok then "—"
    else
      match r.body with
      | none => "—"
      | some data =>
        match jsProp data ("versions") with
        | .val (.obj vf) => metaVersions (.obj vf) (latestTag data) version
        | .val (.arr ve) => metaVersions (.arr ve) (latestTag data) version
        | _ => "—"

/-- `fetchSize`: cache check, spec parsing, then one of the two
registry lookups.  Returns the display string, the updated cache, and
the list of registry requests issued by this call. -/
def fetchSize (net : Net) (cache : Cache) (spec : String) :
    String × Cache × List Request :=
  match cache.lookup spec with
  | some v => (v, cache, [])
  | none =>
    let (name, version) := parsePackageSpec spec
    if name == "" then ("—", (spec, "—") :: cache, [])
    else if useExact version then
      let r := exactResult net name version
      (r, (spec, r) :: cache, [.exact name version])
    else
      let r := metaResult net name version
      (r, (spec, r) :: cache, [.meta name])

/-! ### The filesystem collaborator and the local/installed mode
(src/extension.ts lines 115–159)

The filesystem is a finite tree.  `special` is a stat-able entry that
is neither file nor directory (its `size` is what `stat().size` would
report inside `getDirSize`); `bad` is an entry on which `stat` or
`readdir` throws (dangling symlink, permission error).  Following
symlinks is left to the host (a resolved symlink target is just the
node placed in the tree). -/

mutual
inductive FsNode where
  | file (size : Nat)
  | special (size : Nat)
  | bad
  | dir (entries : FsEntries)
inductive FsEntries where
  | nil
  | cons (name : String) (node : FsNode) (rest : FsEntries)
end

/-- Directory-entry lookup by name (first match). -/
def FsEntries.find : FsEntries → String → Option FsNode
  | .nil, _ => none
  | .cons nm node rest, k => if nm == k then some node else rest.find k

mutual
/-- The per-entry logic of the `getDirSize` loop (lines 149–156):
a directory entry recurses, anything else is stat-ed and its reported
size added; a `bad` entry makes the stat throw. -/
def entrySize : FsNode → Option Nat
  | .file n => some n
  | .special n => some n
  | .bad => none
  | .dir es => getDirSizeEntries es
/-- `getDirSize` (lines 146–159) over the entries of a directory; a
throw anywhere aborts the whole traversal. -/
def getDirSizeEntries : FsEntries → Option Nat
  | .nil => some 0
  | .cons _ c rest =>
    match entrySize c, getDirSizeEntries rest with
    | some a, some b => some (a + b)
    | _, _ => none
end

/-- `fs.stat` at a path below a root node: `none` is a throw (missing
entry, path through a non-directory, or a `bad` node). -/
def statAt : FsNode → List String → Option FsNode
  | .bad, _ => none
  | node, [] => some node
  | .dir es, seg :: rest =>
    match es.find seg with
    | some c => statAt c rest
    | none => none
  | _, _ :: _ => none

/-- The path segments contributed by the package name (line 121):
scoped names are split at every `'/'`, others are one segment. -/
def installParts (name : String) : List String :=
  if strStartsWith ("@") name then (splitOnChar '/' name.data).map List.asString
  else [name]

/-- `getNodeModulesPackageSize` (lines 115–144).  `docDir` is the
manifest's directory as path segments; paths are rendered POSIX-style
for the cache key.  The `Bool` reports whether the call touched the
filesystem. -/
def getNodeModulesPackageSize (fsRoot : FsNode) (cache : Cache)
    (docDir : List String) (name : String) : String × Cache × Bool :=
  let key := "node_modules:" ++ String.intercalate ("/") (docDir ++ ["node_modules", name])
  match cache.lookup key with
  | some v => (v, cache, false)
  | none =>
    let parts := installParts name
    let result :=
      match statAt fsRoot (docDir ++ "node_modules" :: parts) with
      | some (.file n) => formatBytes n
      | some (.dir es) =>
        match getDirSizeEntries es with
        | some total => formatBytes total
        | none => "—"
      | _ => "—"
    (result, (key, result) :: cache, true)

/-! ### `updateDecorations` (src/extension.ts lines 225–266)

Process-wide mutable state is `RenderState`: the size cache and the
keys of `decorationTypeCache` in `Map` insertion order.  A paint call
`editor.setDecorations(getDecorationType(s), ranges)` is recorded as
the pair `(s, ranges)`.

Concurrency: `Promise.all` resolves all entries concurrently.  With a
deterministic `Net`/`FsNode` collaborator and idempotent cache writes,
the concurrently computed values coincide with the left-to-right fold
`resolveAll` below.  The set of *outstanding* collaborator calls of
the batch is different — every entry's synchronous prefix (cache
check, spec parsing, firing the request) runs before any response is
processed, so no result is cached yet when duplicates check — and is
modelled by `batchRequests`. -/

structure RenderState where
  sizeCache : Cache
  decoTypes : List String
deriving DecidableEq, Repr

/-- One paint instruction: display string and the anchor ranges. -/
abbrev PaintCall := String × List Range

/-- The lookup key built on line 241:
`name@version` unless the version is empty or `'*'`. -/
def specOf (e : DepEntry) : String :=
  if e.version != "" && e.version != "*" then e.name ++ "@" ++ e.version
  else e.name

/-- Resolution of one entry (lines 237–243): local/installed mode for
`file:` version specs, registry mode otherwise. -/
def resolveOne (net : Net) (fsRoot : FsNode) (docDir : List String)
    (cache : Cache) (e : DepEntry) : String × Cache :=
  if isFileDependency e.version then
    let r := getNodeModulesPackageSize fsRoot cache docDir e.name
    (r.1, r.2.1)
  else
    let r := fetchSize net cache (specOf e)
    (r.1, r.2.1)

/-- Values of the resolution batch (see the concurrency note above). -/
def resolveAll (net : Net) (fsRoot : FsNode) (docDir : List String) :
    Cache → List DepEntry → List String × Cache
  | cache, [] => ([], cache)
  | cache, e :: rest =>
    let (r, c1) := resolveOne net fsRoot docDir cache e
    let (rs, c2) := resolveAll net fsRoot docDir c1 rest
    (r :: rs, c2)

/-- The outstanding registry requests fired by one batch: each entry's
synchronous prefix checks the cache as it stands at batch start (the
only synchronous cache write is the empty-name path; `file:` entries
issue a filesystem stat, not a registry request). -/
def batchRequests (cache : Cache) (docDir : List String) :
    List DepEntry → List Request
  | [] => []
  | e :: rest =>
    if isFileDependency e.version then
      batchRequests cache docDir rest
    else
      let spec := specOf e
      match cache.lookup spec with
      | some _ => batchRequests cache docDir rest
      | none =>
        let (name, version) := parsePackageSpec spec
        if name == "" then batchRequests ((spec, "—") :: cache) docDir rest
        else if useExact version then
          .exact name version :: batchRequests cache docDir rest
        else
          .meta name :: batchRequests cache docDir rest

/-- Append a key if absent (`Map` insertion order). -/
def insertOnce (l : List String) (s : String) : List String :=
  if l.contains s then l else l ++ [s]

/-- First occurrences of each string, in order: the key sequence of an
insertion-ordered `Map` filled from `l`. -/
def firstOccurrences (l : List String) : List String :=
  l.foldl insertOnce []

/-- The ranges pushed for display string `s` (lines 247–252). -/
def anchorsFor (pairs : List (String × Range)) (s : String) : List Range :=
  pairs.filterMap (fun p => if p.1 == s then some p.2 else none)

/-- Contents of the `bySize` map: keys in first-occurrence order, each
with its ranges in push order. -/
def groupBySize (pairs : List (String × Range)) : List (String × List Range) :=
  (firstOccurrences (pairs.map (fun p => p.1))).map
    (fun s => (s, anchorsFor pairs s))

/-- The decoration-type keys after a pass painting `groups` (every
group key is interned by `getDecorationType` in insertion order). -/
def decoAfter (st : RenderState) (groups : List PaintCall) : List String :=
  (groups.map (fun g => g.1)).foldl insertOnce st.decoTypes

/-- Lines 246–265: group the per-entry results, paint one call per
group, then clear every known decoration type that was not used in
this pass. -/
def paintCalls (st : RenderState) (pairs : List (String × Range)) :
    List PaintCall :=
  let groups := groupBySize pairs
  let used := groups.map (fun g => g.1)
  groups ++ ((decoAfter st groups).filter (fun t => !used.contains t)).map
    (fun t => (t, ([] : List Range)))

def updateDecorations (enabled isPkg : Bool) (parse : String → Option Json)
    (text : String) (net : Net) (fsRoot : FsNode) (docDir : List String)
    (st : RenderState) : RenderState × List PaintCall × List Request :=
  if !enabled then (st, [], [])
  else if !isPkg then (st, [], [])
  else
    let (deps, devs) := parseDepsFromDocument parse text
    let all := deps ++ devs
    if all.isEmpty then (st, [], [])
    else
      let reqs := batchRequests st.sizeCache docDir all
      let (sizes, cache') := resolveAll net fsRoot docDir st.sizeCache all
      let pairs := sizes.zip (all.map (fun e => e.range))
      (⟨cache', decoAfter st (groupBySize pairs)⟩, paintCalls st pairs, reqs)

/-- `clearAllDecorations` (lines 268–272): one empty paint per known
decoration type. -/
def clearAllDecorations (st : RenderState) : List PaintCall :=
  st.decoTypes.map (fun t => (t, ([] : List Range)))

/-- `deactivate` (lines 328–332): dispose every decoration type and
clear both caches. -/
def deactivate : RenderState → RenderState :=
  fun _ => ⟨[], []⟩

/-- What the editor displays per decoration type; a paint call
replaces the range set of its type. -/
abbrev LabelState := String → List Range

def applyCalls (labels : LabelState) : List PaintCall → LabelState
  | [] => labels
  | c :: rest => applyCalls (fun s => if s == c.1 then c.2 else labels s) rest

/-! ## Specification-side predicates and concrete instances -/

/-- A nonempty run of `[0-9]` digits. -/
def DigitRun (l : List Char) : Prop := l ≠ [] ∧ ∀ c ∈ l, c.isDigit = true

/-- The optional prerelease suffix `(-[^+]+)?`. -/
def PreOk (pre : List Char) : Prop :=
  pre = [] ∨ ∃ p, pre = '-' :: p ∧ p ≠ [] ∧ ∀ c ∈ p, c ≠ '+'

/-- The optional build suffix `(\+.*)?` (`.` matches no line
terminator). -/
def BuildOk (build : List Char) : Prop :=
  build = [] ∨ ∃ t, build = '+' :: t ∧ ∀ c ∈ t, lineTerm c = false

/-- The shape the specification ascribes to exact semantic versions:
digits.digits.digits, optionally followed by a prerelease and/or build
suffix. -/
def ExactShape (s : String) : Prop :=
  ∃ d1 d2 d3 pre build,
    s.data = d1 ++ '.' :: (d2 ++ '.' :: (d3 ++ (pre ++ build))) ∧
    DigitRun d1 ∧ DigitRun d2 ∧ DigitRun d3 ∧ PreOk pre ∧ BuildOk build

/-- The declared-field shapes for which the JavaScript test
`name in (field || {})` cannot throw: everything except a truthy
primitive. -/
def noThrowField : Option Json → Bool
  | some (.bool true) => false
  | some (.num n) => n == 0
  | some (.str s) => s == ""
  | _ => true

/-- The `node_modules` cache key of `getNodeModulesPackageSize`. -/
def nodeModulesKey (docDir : List String) (name : String) : String :=
  "node_modules:" ++ String.intercalate ("/") (docDir ++ ["node_modules", name])

mutual
/-- A node that is a regular file or a directory of clean entries (the
specification's "symlink semantics and file-type edge cases follow the
host filesystem" caveat excludes `special` and `bad` nodes). -/
def cleanNode : FsNode → Bool
  | .file _ => true
  | .dir es => cleanEntries es
  | _ => false
def cleanEntries : FsEntries → Bool
  | .nil => true
  | .cons _ c rest => cleanNode c && cleanEntries rest
end

mutual
/-- Sum of the sizes of all files transitively contained. -/
def nodeTotal : FsNode → Nat
  | .file n => n
  | .dir es => entriesTotal es
  | _ => 0
def entriesTotal : FsEntries → Nat
  | .nil => 0
  | .cons _ c rest => nodeTotal c + entriesTotal rest
end

/-- A sample installed tree:
`d/node_modules/lp/{a (1000 B), s/b (1048 B)}`. -/
def sampleEntries : FsEntries :=
  .cons "a" (.file 1000)
    (.cons "s" (.dir (.cons "b" (.file 1048) .nil)) .nil)

def sampleTree : FsNode :=
  .dir (.cons "d" (.dir (.cons "node_modules"
    (.dir (.cons "lp" (.dir sampleEntries) .nil)) .nil)) .nil)

/-- A tree whose installed directory contains an entry on which `stat`
throws. -/
def brokenTree : FsNode :=
  .dir (.cons "d" (.dir (.cons "node_modules"
    (.dir (.cons "bk" (.dir (.cons "c" .bad .nil)) .nil)) .nil)) .nil)

/-- All entries of a pass, in resolution order (deps then devDeps). -/
def allEntriesOf (parse : String → Option Json) (text : String) :
    List DepEntry :=
  (parseDepsFromDocument parse text).1 ++ (parseDepsFromDocument parse text).2

/-- The display strings a pass resolves, entry by entry. -/
def passSizes (net : Net) (fsRoot : FsNode) (docDir : List String)
    (st : RenderState) (parse : String → Option Json) (text : String) :
    List String :=
  (resolveAll net fsRoot docDir st.sizeCache (allEntriesOf parse text)).1

/-- The anchor sets carried by the calls painting display string `s`. -/
def callsFor (calls : List PaintCall) (s : String) : List (List Range) :=
  calls.filterMap (fun c => if c.1 == s then some c.2 else none)

/-- A two-dependency manifest resolved against a failing registry:
both entries display the unknown sentinel. -/
def parseW : String → Option Json := fun _ =>
  some (.obj [("dependencies", .obj [("a", .str ("*")), ("b", .str ("*"))])])

def textW : String := "\"a\": \"*\"\n\"b\": \"*\""

/-- The size read from the selected version entry:
`ver?.dist?.unpackedSize`, formatted, with every missing or
non-numeric field degrading to the unknown sentinel. -/
def sizeOfSelected (versions : Json) (key : String) : String :=
  match distSize (jsProp versions key) with
  | .val (.num n) => formatBytes n
  | _ => "—"

/-- The registry body used by the C2 counterexample: `beta` is present
in the versions map but bound to `null`; `latest` is `1.0.0` with an
unpacked size of 2048. -/
def versionsC : List (String × Json) :=
  [("beta", .null),
   ("1.0.0", .obj [("dist", .obj [("unpackedSize", .num 2048)])])]

def bodyC : Json :=
  .obj [("dist-tags", .obj [("latest", .str ("1.0.0"))]),
        ("versions", .obj versionsC)]

def netC : Net := fun r =>
  match r with
  | .meta ("pkg") => some ⟨true, some bodyC⟩
  | _ => none

/-! ## Shared list lemmas -/

theorem takeWhile_append_cons {p : Char → Bool} :
    ∀ (a : List Char) {x : Char} {r : List Char},
      (∀ c ∈ a, p c = true) → p x = false →
      (a ++ x :: r).takeWhile p = a ∧ (a ++ x :: r).dropWhile p = x :: r := by
  intro a
  induction a with
  | nil =>
    intro x r _ hx
    simp [List.takeWhile_cons, List.dropWhile_cons, hx]
  | cons c a ih =>
    intro x r hall hx
    have hc : p c = true := hall c (by simp)
    have h2 := ih (x := x) (r := r) (fun d hd => hall d (by simp [hd])) hx
    simp [List.takeWhile_cons, List.dropWhile_cons, hc, h2.1, h2.2]

theorem takeWhile_all_self {p : Char → Bool} {a : List Char}
    (h : ∀ c ∈ a, p c = true) : a.takeWhile p = a ∧ a.dropWhile p = [] :=
  ⟨List.takeWhile_eq_self_iff.mpr h, List.dropWhile_eq_nil_iff.mpr h⟩

theorem dropWhile_head_false {p : Char → Bool} :
    ∀ {l : List Char} {x : Char} {xs : List Char},
      l.dropWhile p = x :: xs → p x = false := by
  intro l
  induction l with
  | nil => intro x xs h; simp at h
  | cons c cl ih =>
    intro x xs h
    rw [List.dropWhile_cons] at h
    by_cases hc : p c = true
    · rw [if_pos hc] at h; exact ih h
    · rw [if_neg hc] at h
      injection h with h1 _
      subst h1
      exact Bool.eq_false_iff.mpr hc

/-! ## C6: exact-version detection -/

theorem matchTail_iff (cs : List Char) :
    matchTail cs = true ↔
      ∃ pre build, cs = pre ++ build ∧ PreOk pre ∧ BuildOk build := by
  constructor
  · intro h
    rcases cs with _ | ⟨c, rest⟩
    · exact ⟨[], [], rfl, Or.inl rfl, Or.inl rfl⟩
    · simp only [matchTail] at h
      by_cases hplus : c = '+'
      · subst hplus
        rw [if_pos rfl] at h
        refine ⟨[], '+' :: rest, rfl, Or.inl rfl, Or.inr ⟨rest, rfl, ?_⟩⟩
        intro d hd
        simpa using List.all_eq_true.mp h d hd
      · by_cases hminus : c = '-'
        · subst hminus
          rw [if_neg (by decide), if_pos rfl] at h
          rcases h1 : rest.takeWhile (fun d => d != '+') with _ | ⟨t, ts⟩ <;>
            rcases h2 : rest.dropWhile (fun d => d != '+') with _ | ⟨d, dt⟩ <;>
              rw [h1, h2] at h
          · exact absurd h (by simp)
          · exact absurd h (by simp)
          · -- tail is all prerelease, no build part
            have hrest : rest = t :: ts := by
              have := List.takeWhile_append_dropWhile (fun d => d != '+') rest
              rw [h1, h2] at this
              simpa using this.symm
            refine ⟨'-' :: (t :: ts), [], by simp [hrest], Or.inr ⟨t :: ts, rfl, by simp, ?_⟩, Or.inl rfl⟩
            intro x hx
            have : (x != '+') = true := List.mem_takeWhile_imp (p := fun d => d != '+') (by rw [h1]; exact hx)
            simpa using this
          · -- prerelease then a build part
            have hrest : rest = (t :: ts) ++ d :: dt := by
              have := List.takeWhile_append_dropWhile (fun d => d != '+') rest
              rw [h1, h2] at this
              exact this.symm
            have hd : d = '+' := by
              have := dropWhile_head_false (p := fun d => d != '+') h2
              simpa using this
            subst hd
            refine ⟨'-' :: (t :: ts), '+' :: dt, by simp [hrest], Or.inr ⟨t :: ts, rfl, by simp, ?_⟩, Or.inr ⟨dt, rfl, ?_⟩⟩
            · intro x hx
              have : (x != '+') = true := List.mem_takeWhile_imp (p := fun d => d != '+') (by rw [h1]; exact hx)
              simpa using this
            · intro x hx
              simpa using List.all_eq_true.mp h x hx
        · rw [if_neg hplus, if_neg hminus] at h
          exact absurd h (by simp)
  · rintro ⟨pre, build, rfl, hpre, hbuild⟩
    rcases hpre with rfl | ⟨p, rfl, hpne, hpall⟩
    · rcases hbuild with rfl | ⟨t, rfl, ht⟩
      · rfl
      · simp only [List.nil_append, matchTail, if_pos rfl]
        exact List.all_eq_true.mpr fun d hd => by simpa using ht d hd
    · have hpall' : ∀ c ∈ p, (fun d => d != '+') c = true := fun c hc => by
        simpa using hpall c hc
      rcases hbuild with rfl | ⟨t, rfl, ht⟩
      · have hsp := takeWhile_all_self hpall'
        simp only [List.append_nil, matchTail, if_neg (by decide : ¬('-' = '+')), if_pos rfl]
        rw [hsp.1, hsp.2]
        rcases p with _ | ⟨a, as⟩
        · exact absurd rfl hpne
        · rfl
      · have hsp := takeWhile_append_cons p (x := '+') (r := t) hpall' (by simp)
        simp only [List.cons_append, matchTail, if_neg (by decide : ¬('-' = '+')), if_pos rfl]
        rw [hsp.1, hsp.2]
        rcases p with _ | ⟨a, as⟩
        · exact absurd rfl hpne
        · exact List.all_eq_true.mpr fun d hd => by simpa using ht d hd

theorem afterDot_eq_some {r r2 : List Char} :
    afterDot r = some r2 ↔ r = '.' :: r2 := by
  cases r with
  | nil => simp [afterDot]
  | cons c rest =>
    by_cases hc : c = '.'
    · subst hc; simp [afterDot]
    · simp [afterDot, hc]

theorem matchSemver_iff (cs : List Char) :
    matchSemver cs = true ↔
      ∃ d1 d2 d3 pre build,
        cs = d1 ++ '.' :: (d2 ++ '.' :: (d3 ++ (pre ++ build))) ∧
        DigitRun d1 ∧ DigitRun d2 ∧ DigitRun d3 ∧ PreOk pre ∧ BuildOk build := by
  constructor
  · intro h
    simp only [matchSemver] at h
    by_cases h1 : cs.takeWhile Char.isDigit = []
    · rw [if_pos h1] at h; exact absurd h (by simp)
    rw [if_neg h1] at h
    rcases had1 : afterDot (cs.dropWhile Char.isDigit) with _ | r2 <;>
      rw [had1] at h
    · exact absurd h (by simp [Option.elim])
    simp only [Option.elim] at h
    have hdw1 : cs.dropWhile Char.isDigit = '.' :: r2 := afterDot_eq_some.mp had1
    by_cases h2 : r2.takeWhile Char.isDigit = []
    · rw [if_pos h2] at h; exact absurd h (by simp)
    rw [if_neg h2] at h
    rcases had2 : afterDot (r2.dropWhile Char.isDigit) with _ | r4 <;>
      rw [had2] at h
    · exact absurd h (by simp [Option.elim])
    simp only [Option.elim] at h
    have hdw2 : r2.dropWhile Char.isDigit = '.' :: r4 := afterDot_eq_some.mp had2
    by_cases h3 : r4.takeWhile Char.isDigit = []
    · rw [if_pos h3] at h; exact absurd h (by simp)
    rw [if_neg h3] at h
    rcases (matchTail_iff (r4.dropWhile Char.isDigit)).mp h with ⟨pre, build, htl, hpre, hbuild⟩
    refine ⟨cs.takeWhile Char.isDigit, r2.takeWhile Char.isDigit,
      r4.takeWhile Char.isDigit, pre, build, ?_, ⟨h1, fun c hc => List.mem_takeWhile_imp hc⟩,
      ⟨h2, fun c hc => List.mem_takeWhile_imp hc⟩,
      ⟨h3, fun c hc => List.mem_takeWhile_imp hc⟩, hpre, hbuild⟩
    have e1 := List.takeWhile_append_dropWhile Char.isDigit cs
    have e2 := List.takeWhile_append_dropWhile Char.isDigit r2
    have e3 := List.takeWhile_append_dropWhile Char.isDigit r4
    rw [hdw1] at e1
    rw [hdw2] at e2
    rw [htl] at e3
    rw [e3, e2, e1]
  · rintro ⟨d1, d2, d3, pre, build, rfl, ⟨h1ne, h1all⟩, ⟨h2ne, h2all⟩, ⟨h3ne, h3all⟩, hpre, hbuild⟩
    have e1 := takeWhile_append_cons (p := Char.isDigit) d1
      (x := '.') (r := d2 ++ '.' :: (d3 ++ (pre ++ build))) h1all (by decide)
    have e2 := takeWhile_append_cons (p := Char.isDigit) d2
      (x := '.') (r := d3 ++ (pre ++ build)) h2all (by decide)
    have e3 : (d3 ++ (pre ++ build)).takeWhile Char.isDigit = d3 ∧
        (d3 ++ (pre ++ build)).dropWhile Char.isDigit = pre ++ build := by
      rcases hpre with rfl | ⟨p, rfl, hpne, hpall⟩
      · rcases hbuild with rfl | ⟨t, rfl, ht⟩
        · simpa using takeWhile_all_self h3all
        · simpa using takeWhile_append_cons d3 (x := '+') (r := t) h3all (by decide)
      · exact (by simpa using takeWhile_append_cons d3 (x := '-') (r := p ++ build) h3all (by decide))
    have a1 : afterDot ('.' :: (d2 ++ '.' :: (d3 ++ (pre ++ build)))) =
        some (d2 ++ '.' :: (d3 ++ (pre ++ build))) := by simp [afterDot]
    have a2 : afterDot ('.' :: (d3 ++ (pre ++ build))) =
        some (d3 ++ (pre ++ build)) := by simp [afterDot]
    simp only [matchSemver, e1.1, e1.2, if_neg h1ne, a1, Option.elim,
      e2.1, e2.2, if_neg h2ne, a2, e3.1, e3.2, if_neg h3ne]
    exact (matchTail_iff (pre ++ build)).mpr ⟨pre, build, rfl, hpre, hbuild⟩

/-- C6: the detector accepts the listed examples, accepts exactly the
digits.digits.digits(-prerelease)?(+build)? shape plus the special
case `"*"`, and resolution routes `"*"` to the wildcard
(full-metadata) path since `useExact` rejects it. -/
theorem isExactVersion_characterization :
    isExactVersion ("4.17.21") = true ∧
    isExactVersion ("^4.17.21") = false ∧
    isExactVersion ("1.0.0-beta.1") = true ∧
    isExactVersion ("*") = true ∧
    useExact ("*") = false ∧
    ∀ s : String, isExactVersion s = true ↔ (ExactShape s ∨ s = "*") := by
  refine ⟨by decide, by decide, by decide, by decide, by decide, fun s => ?_⟩
  simp only [isExactVersion, Bool.or_eq_true, beq_iff_eq]
  exact or_congr (matchSemver_iff s.data) Iff.rfl

/-- Witness: the characterization applied to a concrete shaped
string. -/
theorem isExactVersion_characterization_witness :
    isExactVersion ("2.3.4-rc.1+x") = true :=
  (isExactVersion_characterization.2.2.2.2.2 ("2.3.4-rc.1+x")).mpr
    (Or.inl ⟨['2'], ['3'], ['4'], ['-', 'r', 'c', '.', '1'], ['+', 'x'],
      by decide, ⟨by decide, by decide⟩, ⟨by decide, by decide⟩,
      ⟨by decide, by decide⟩,
      Or.inr ⟨['r', 'c', '.', '1'], rfl, by decide, by decide⟩,
      Or.inr ⟨['x'], rfl, by decide⟩⟩)

/-! ## C1: byte-count formatting -/

/-- C1 counterexample: the code rounds `1048575 / 1024 = 1023.999…` to
one decimal place, so the boundary value renders as `"1024.0 kB"`, not
the `"1023.9 kB"` the claim states. -/
theorem formatBytes_1048575_counterexample :
    formatBytes 1048575 ≠ "1023.9 kB" := by decide

/-- C1 (amended): `formatBytes` selects by the binary thresholds, with
one rounded decimal place and the `MB`/`kB`/`B` suffixes; the three
correct examples hold, and the boundary value `1048575` renders as
`"1024.0 kB"`.  The last conjunct pins down the rounding: the printed
tenths value `n` satisfies `n = ⌊(20·num + den) / (2·den)⌋`, i.e. it
is `num/den` rounded to tenths, half away from zero. -/
theorem formatBytes_display :
    formatBytes 500 = "500 B" ∧
    formatBytes 2048 = "2.0 kB" ∧
    formatBytes 1572864 = "1.5 MB" ∧
    formatBytes 1048575 = "1024.0 kB" ∧
    (∀ b : Int, 1048576 ≤ b →
      formatBytes b = jsToFixed1 b.toNat 1048576 ++ " MB") ∧
    (∀ b : Int, 1024 ≤ b → b < 1048576 →
      formatBytes b = jsToFixed1 b.toNat 1024 ++ " kB") ∧
    (∀ b : Int, b < 1024 → formatBytes b = toString b ++ " B") ∧
    (∀ num den : Nat, 0 < den →
      jsToFixed1 num den =
        toString ((20 * num + den) / (2 * den) / 10) ++ "." ++
          toString ((20 * num + den) / (2 * den) % 10) ∧
      (20 * num + den) / (2 * den) * (2 * den) ≤ 20 * num + den ∧
      20 * num + den < ((20 * num + den) / (2 * den) + 1) * (2 * den)) := by
  refine ⟨by decide, by decide, by decide, by decide, ?_, ?_, ?_, ?_⟩
  · intro b hb
    rw [formatBytes, if_pos (by norm_num; omega)]
  · intro b hb1 hb2
    rw [formatBytes, if_neg (by norm_num; omega), if_pos (by omega)]
  · intro b hb
    rw [formatBytes, if_neg (by norm_num; omega), if_neg (by omega)]
  · intro num den hden
    have hd : 0 < 2 * den := by omega
    refine ⟨rfl, Nat.div_mul_le_self _ _, ?_⟩
    by_contra hcon
    push_neg at hcon
    have := (Nat.le_div_iff_mul_le hd).mpr hcon
    omega

/-! ## C4: malformed JSON -/

/-- C4: when the text fails to parse as JSON (the abstracted
`JSON.parse` models its exception as `none`), both entry sequences are
empty; the total Lean function cannot raise. -/
theorem parse_failure_yields_empty (parse : String → Option Json)
    (text : String) (h : parse text = none) :
    parseDepsFromDocument parse text = ([], []) := by
  simp [parseDepsFromDocument, h]

theorem parse_failure_yields_empty_witness :
    parseDepsFromDocument (fun _ => none) ("\x7b\"a\": \"1\",") = ([], []) :=
  parse_failure_yields_empty (fun _ => none) "\x7b\"a\": \"1\"," rfl

/-! ## C3: dependency-entry extraction -/

theorem jsMem_ne_none {f : Option Json} (h : noThrowField f = true)
    (name : String) : jsMem name f ≠ none := by
  match f with
  | none => simp [jsMem]
  | some .null => simp [jsMem]
  | some (.bool false) => simp [jsMem]
  | some (.obj fields) => simp [jsMem]
  | some (.arr es) => simp [jsMem]
  | some (.bool true) => simp [noThrowField] at h
  | some (.num n) =>
    have hn : n = 0 := by simpa [noThrowField] using h
    simp [jsMem, hn]
  | some (.str s) =>
    have hs : s = "" := by simpa [noThrowField] using h
    simp [jsMem, hs]

/-- The match loop, related to two `filterMap`s over the scanned
matches when neither membership test can throw. -/
theorem processMatches_eq {dF vF : Option Json}
    (hd : noThrowField dF = true) (hv : noThrowField vF = true)
    (text : String) :
    ∀ (ms : List (Nat × String × String)) (deps devs : List DepEntry),
      processMatches dF vF text ms deps devs =
        (deps ++ ms.filterMap (fun m =>
            if jsMem m.2.1 dF = some true then some (mkEntry text m) else none),
         devs ++ ms.filterMap (fun m =>
            if jsMem m.2.1 dF = some false ∧ jsMem m.2.1 vF = some true
            then some (mkEntry text m) else none)) := by
  intro ms
  induction ms with
  | nil => intro deps devs; simp [processMatches]
  | cons m rest ih =>
    intro deps devs
    rcases hmem : jsMem m.2.1 dF with _ | b
    · exact absurd hmem (jsMem_ne_none hd m.2.1)
    rcases b with _ | _
    · -- not a direct dependency: try the dev set
      rcases hmem2 : jsMem m.2.1 vF with _ | b2
      · exact absurd hmem2 (jsMem_ne_none hv m.2.1)
      rcases b2 with _ | _
      · simp [processMatches, hmem, hmem2, ih]
      · simp [processMatches, hmem, hmem2, ih]
    · simp [processMatches, hmem, ih]

/-- C3 counterexample: for the manifest text `{"toString": "x"}` — no
`dependencies` and no `devDependencies` declared at all — the scanned
key `toString` is recorded as a direct dependency, because the
JavaScript `in` operator finds `Object.prototype.toString` on the `{}`
fallback.  The claim as stated requires the key to belong to a
declared dependency set, so it admits no entry here. -/
theorem parseDeps_proto_counterexample :
    (parseDepsFromDocument (fun _ => some (.obj [("toString", .str ("x"))]))
        "\x7b\"toString\": \"x\"\x7d").1 =
      [⟨"toString", "x", ⟨⟨0, 17⟩, ⟨0, 17⟩⟩⟩] ∧
    jGetField (.obj [("toString", .str ("x"))]) ("dependencies") = none ∧
    jGetField (.obj [("toString", .str ("x"))]) ("devDependencies") = none := by
  refine ⟨by decide, rfl, rfl⟩

/-- C3 (amended): one entry per scanned match whose key the JavaScript
`in` operator finds on the declared dependency map (its own keys or an
`Object.prototype` property name), direct dependencies checked first;
each entry is anchored by a zero-width range at the end of the line
containing the match, and its version is the matched value, defaulting
to `'*'` when that value is empty. -/
theorem parseDeps_characterization (parse : String → Option Json)
    (text : String) (j : Json) (hp : parse text = some j) (hj : j ≠ .null)
    (h1 : noThrowField (jGetField j ("dependencies")) = true)
    (h2 : noThrowField (jGetField j ("devDependencies")) = true) :
    parseDepsFromDocument parse text =
      ((scanMatches text).filterMap (fun m =>
          if jsMem m.2.1 (jGetField j ("dependencies")) = some true
          then some (mkEntry text m) else none),
       (scanMatches text).filterMap (fun m =>
          if jsMem m.2.1 (jGetField j ("dependencies")) = some false ∧
              jsMem m.2.1 (jGetField j ("devDependencies")) = some true
          then some (mkEntry text m) else none)) ∧
    ∀ m : Nat × String × String,
      (mkEntry text m).range.start = (mkEntry text m).range.stop ∧
      (mkEntry text m).range.start = lineEndPos text (lineOfOffset text m.1) ∧
      (mkEntry text m).version = (if m.2.2 == "" then "*" else m.2.2) := by
  constructor
  · have hstep : parseDepsFromDocument parse text =
        processMatches (jGetField j ("dependencies"))
          (jGetField j ("devDependencies")) text (scanMatches text) [] [] := by
      unfold parseDepsFromDocument
      rw [hp]
      cases j with
      | null => exact absurd rfl hj
      | bool b => rfl
      | num n => rfl
      | str s => rfl
      | arr es => rfl
      | obj fields => rfl
    rw [hstep, processMatches_eq h1 h2 text (scanMatches text) [] []]
    simp
  · intro m
    exact ⟨rfl, rfl, rfl⟩

/-- Witness: the characterization applied to a one-dependency
manifest. -/
theorem parseDeps_characterization_witness :
    parseDepsFromDocument
        (fun _ => some (.obj [("dependencies", .obj [("a", .str (""))])]))
        "\x7b\"a\": \"\"\x7d" =
      ((scanMatches ("\x7b\"a\": \"\"\x7d")).filterMap (fun m =>
          if jsMem m.2.1 (jGetField (.obj [("dependencies", .obj [("a", .str (""))])]) ("dependencies")) = some true
          then some (mkEntry ("\x7b\"a\": \"\"\x7d") m) else none),
       (scanMatches ("\x7b\"a\": \"\"\x7d")).filterMap (fun m =>
          if jsMem m.2.1 (jGetField (.obj [("dependencies", .obj [("a", .str (""))])]) ("dependencies")) = some false ∧
              jsMem m.2.1 (jGetField (.obj [("dependencies", .obj [("a", .str (""))])]) ("devDependencies")) = some true
          then some (mkEntry ("\x7b\"a\": \"\"\x7d") m) else none)) :=
  (parseDeps_characterization
    (fun _ => some (.obj [("dependencies", .obj [("a", .str (""))])]))
    "\x7b\"a\": \"\"\x7d" (.obj [("dependencies", .obj [("a", .str (""))])])
    rfl (fun h => Json.noConfusion h) rfl rfl).1

/-! ## Cache lemmas (shared by C5 and C10) -/

/-- Every path of `fetchSize` leaves its result in the cache under the
spec key. -/
theorem fetchSize_caches (net : Net) (cache : Cache) (spec : String) :
    ((fetchSize net cache spec).2.1).lookup spec =
      some (fetchSize net cache spec).1 := by
  unfold fetchSize
  rcases h : cache.lookup spec with _ | v
  · rcases hp : parsePackageSpec spec with ⟨name, version⟩
    simp only [h, hp]
    split_ifs <;> simp [List.lookup]
  · simp [h]

/-- A cache hit short-circuits `fetchSize`: no request, unchanged
cache. -/
theorem fetchSize_cached (net : Net) (cache : Cache) (spec v : String)
    (h : cache.lookup spec = some v) :
    fetchSize net cache spec = (v, cache, []) := by
  unfold fetchSize
  rw [h]

/-- `fetchSize` never overwrites an existing cache binding. -/
theorem fetchSize_cache_mono (net : Net) (cache : Cache) (spec k v : String)
    (h : cache.lookup k = some v) :
    ((fetchSize net cache spec).2.1).lookup k = some v := by
  unfold fetchSize
  rcases hm : cache.lookup spec with _ | w
  · have hk : k ≠ spec := fun he => by rw [he, hm] at h; exact Option.noConfusion h
    have hbeq : (k == spec) = false := beq_eq_false_iff_ne.mpr hk
    rcases hp : parsePackageSpec spec with ⟨name, version⟩
    simp only [hm, hp]
    split_ifs <;> simp [List.lookup, hbeq, h]
  · simp [hm, h]

/-- Every path of `getNodeModulesPackageSize` caches its result. -/
theorem getNodeModulesPackageSize_caches (fsRoot : FsNode) (cache : Cache)
    (docDir : List String) (name : String) :
    ((getNodeModulesPackageSize fsRoot cache docDir name).2.1).lookup
        (nodeModulesKey docDir name) =
      some (getNodeModulesPackageSize fsRoot cache docDir name).1 := by
  unfold getNodeModulesPackageSize nodeModulesKey
  rcases h : cache.lookup ("node_modules:" ++ String.intercalate ("/") (docDir ++ ["node_modules", name])) with _ | v
  · simp [h, List.lookup]
  · simp [h]

/-- A cache hit short-circuits the filesystem path entirely. -/
theorem getNodeModulesPackageSize_cached (fsRoot : FsNode) (cache : Cache)
    (docDir : List String) (name v : String)
    (h : cache.lookup (nodeModulesKey docDir name) = some v) :
    getNodeModulesPackageSize fsRoot cache docDir name = (v, cache, false) := by
  unfold nodeModulesKey at h
  unfold getNodeModulesPackageSize
  simp [h]

/-- `fetchSize` issues at most one request per call. -/
theorem fetchSize_at_most_one_request (net : Net) (cache : Cache) (spec : String) :
    (fetchSize net cache spec).2.2.length ≤ 1 := by
  unfold fetchSize
  rcases h : cache.lookup spec with _ | v
  · rcases hp : parsePackageSpec spec with ⟨name, version⟩
    simp only [h, hp]
    split_ifs <;> simp
  · simp [h]

/-! ## C5: cache idempotence and batch coalescing -/

/-- C5 counterexample: two entries for the same uncached key in one
batch each fire their own outstanding registry request — the cache
does not coalesce in-flight duplicates, because results are only
stored after a response arrives. -/
theorem batch_duplicates_counterexample :
    batchRequests [] []
        [⟨"lodash", "*", ⟨⟨0, 0⟩, ⟨0, 0⟩⟩⟩, ⟨"lodash", "*", ⟨⟨0, 0⟩, ⟨0, 0⟩⟩⟩] =
      [.meta ("lodash"), .meta ("lodash")] := by
  decide

/-- C5 (amended): resolving the same key a second time after a
completed resolution issues no further underlying lookup (at most one
in total) and returns the identical result, for the registry cache key
and for the `node_modules` cache key alike; but duplicate uncached
keys inside a single batch are *not* coalesced — each occurrence
issues its own outstanding registry call. -/
theorem cache_idempotence :
    (∀ (net : Net) (cache : Cache) (spec : String),
      (fetchSize net cache spec).2.2.length ≤ 1 ∧
      fetchSize net (fetchSize net cache spec).2.1 spec =
        ((fetchSize net cache spec).1, (fetchSize net cache spec).2.1, [])) ∧
    (∀ (fsRoot : FsNode) (cache : Cache) (docDir : List String) (name : String),
      getNodeModulesPackageSize fsRoot
          (getNodeModulesPackageSize fsRoot cache docDir name).2.1 docDir name =
        ((getNodeModulesPackageSize fsRoot cache docDir name).1,
         (getNodeModulesPackageSize fsRoot cache docDir name).2.1, false)) ∧
    (∀ (cache : Cache) (docDir : List String) (e : DepEntry),
      isFileDependency e.version = false →
      cache.lookup (specOf e) = none →
      (parsePackageSpec (specOf e)).1 ≠ "" →
      (batchRequests cache docDir [e, e]).length = 2) := by
  refine ⟨fun net cache spec => ⟨fetchSize_at_most_one_request net cache spec, ?_⟩,
    fun fsRoot cache docDir name => ?_, fun cache docDir e hfile hmiss hname => ?_⟩
  · exact fetchSize_cached net _ spec _ (fetchSize_caches net cache spec)
  · exact getNodeModulesPackageSize_cached fsRoot _ docDir name _
      (getNodeModulesPackageSize_caches fsRoot cache docDir name)
  · rcases hp : parsePackageSpec (specOf e) with ⟨name, version⟩
    have hn : name ≠ "" := by rw [hp] at hname; exact hname
    have hnb : (name == "") = false := beq_eq_false_iff_ne.mpr hn
    simp only [batchRequests, hfile, Bool.false_eq_true, if_false, hmiss, hp, hnb]
    split_ifs <;> simp

/-- Witness: both idempotence parts and the batch length at concrete
inputs. -/
theorem cache_idempotence_witness :
    ((fetchSize (fun _ => none) [] "pkg").2.2.length ≤ 1 ∧
      fetchSize (fun _ => none) ((fetchSize (fun _ => none) [] "pkg").2.1) "pkg" =
        ((fetchSize (fun _ => none) [] "pkg").1,
         (fetchSize (fun _ => none) [] "pkg").2.1, [])) ∧
    getNodeModulesPackageSize (.dir .nil)
        ((getNodeModulesPackageSize (.dir .nil) [] ["proj"] "a").2.1) ["proj"] "a" =
      ((getNodeModulesPackageSize (.dir .nil) [] ["proj"] "a").1,
       (getNodeModulesPackageSize (.dir .nil) [] ["proj"] "a").2.1, false) ∧
    (batchRequests [] [] [⟨"a", "*", ⟨⟨0, 0⟩, ⟨0, 0⟩⟩⟩, ⟨"a", "*", ⟨⟨0, 0⟩, ⟨0, 0⟩⟩⟩]).length = 2 :=
  ⟨cache_idempotence.1 (fun _ => none) [] "pkg",
   cache_idempotence.2.1 (.dir .nil) [] ["proj"] "a",
   cache_idempotence.2.2 [] [] ⟨"a", "*", ⟨⟨0, 0⟩, ⟨0, 0⟩⟩⟩ rfl rfl (by decide)⟩

/-! ## C10: failures are cached like successes -/

/-- C10: every resolution (including every failure path producing
`"—"`) stores its result under its lookup key; a subsequent resolution
of a key cached as `"—"` returns `"—"` without issuing any registry or
filesystem operation; no resolution removes or overwrites an existing
binding; and only `deactivate` (the `clear()` call) resets the
cache. -/
theorem failure_results_cached :
    (∀ (net : Net) (cache : Cache) (spec : String),
      ((fetchSize net cache spec).2.1).lookup spec =
        some (fetchSize net cache spec).1) ∧
    (∀ (net : Net) (cache : Cache) (spec : String),
      cache.lookup spec = some ("—") →
      fetchSize net cache spec = ("—", cache, [])) ∧
    (∀ (fsRoot : FsNode) (cache : Cache) (docDir : List String) (name : String),
      ((getNodeModulesPackageSize fsRoot cache docDir name).2.1).lookup
          (nodeModulesKey docDir name) =
        some (getNodeModulesPackageSize fsRoot cache docDir name).1) ∧
    (∀ (fsRoot : FsNode) (cache : Cache) (docDir : List String) (name : String),
      cache.lookup (nodeModulesKey docDir name) = some ("—") →
      getNodeModulesPackageSize fsRoot cache docDir name = ("—", cache, false)) ∧
    (∀ (net : Net) (cache : Cache) (spec k v : String),
      cache.lookup k = some v →
      ((fetchSize net cache spec).2.1).lookup k = some v) ∧
    (∀ st : RenderState, (deactivate st).sizeCache = [] ∧ (deactivate st).decoTypes = []) :=
  ⟨fetchSize_caches,
   fun net cache spec h => fetchSize_cached net cache spec _ h,
   getNodeModulesPackageSize_caches,
   fun fsRoot cache docDir name h =>
     getNodeModulesPackageSize_cached fsRoot cache docDir name _ h,
   fetchSize_cache_mono,
   fun _ => ⟨rfl, rfl⟩⟩

/-- Witness: a failed lookup stores `"—"`, and re-resolving hits the
cache with no request. -/
theorem failure_results_cached_witness :
    fetchSize (fun _ => none) [("p", "—")] "p" = ("—", [("p", "—")], []) ∧
    getNodeModulesPackageSize (.dir .nil) [(PkgSize.nodeModulesKey ["d"] "n", "—")] ["d"] "n" =
      ("—", [(PkgSize.nodeModulesKey ["d"] "n", "—")], false) ∧
    ((fetchSize (fun _ => none) [("q", "2.0 kB")] "p").2.1).lookup ("q") = some ("2.0 kB") :=
  ⟨failure_results_cached.2.1 (fun _ => none) [("p", "—")] "p" rfl,
   failure_results_cached.2.2.2.1 (.dir .nil) [(PkgSize.nodeModulesKey ["d"] "n", "—")] ["d"] "n" (by simp [List.lookup]),
   failure_results_cached.2.2.2.2.1 (fun _ => none) [("q", "2.0 kB")] "p" "q" "2.0 kB" rfl⟩

/-- Witness for the quantified conjuncts of `formatBytes_display`. -/
theorem formatBytes_display_witness :
    formatBytes 2097152 = jsToFixed1 (Int.toNat 2097152) 1048576 ++ " MB" ∧
    formatBytes 1536 = jsToFixed1 (Int.toNat 1536) 1024 ++ " kB" ∧
    formatBytes 12 = toString (12 : Int) ++ " B" ∧
    (jsToFixed1 10 4 =
        toString ((20 * 10 + 4) / (2 * 4) / 10) ++ "." ++
          toString ((20 * 10 + 4) / (2 * 4) % 10) ∧
      (20 * 10 + 4) / (2 * 4) * (2 * 4) ≤ 20 * 10 + 4 ∧
      20 * 10 + 4 < ((20 * 10 + 4) / (2 * 4) + 1) * (2 * 4)) :=
  ⟨formatBytes_display.2.2.2.2.1 2097152 (by norm_num),
   formatBytes_display.2.2.2.2.2.1 1536 (by norm_num) (by norm_num),
   formatBytes_display.2.2.2.2.2.2.1 12 (by norm_num),
   formatBytes_display.2.2.2.2.2.2.2 10 4 (by norm_num)⟩

/-! ## C8: local/installed mode -/

mutual
/-- On a clean node the per-entry size is the file-size sum. -/
theorem entrySize_clean :
    ∀ c : FsNode, cleanNode c = true → entrySize c = some (nodeTotal c)
  | .file n, _ => rfl
  | .special n, h => by simp [cleanNode] at h
  | .bad, h => by simp [cleanNode] at h
  | .dir es, h => by
    have := getDirSizeEntries_clean es (by simpa [cleanNode] using h)
    simp [entrySize, nodeTotal, this]
/-- On clean entries the traversal succeeds and computes exactly the
sum of all contained file sizes. -/
theorem getDirSizeEntries_clean :
    ∀ es : FsEntries, cleanEntries es = true →
      getDirSizeEntries es = some (entriesTotal es)
  | .nil, _ => rfl
  | .cons nm c rest, h => by
    have hh : cleanNode c = true ∧ cleanEntries rest = true := by
      have h' := h
      simp [cleanEntries] at h'
      exact h'
    have h1 := entrySize_clean c hh.1
    have h2 := getDirSizeEntries_clean rest hh.2
    simp [getDirSizeEntries, entriesTotal, h1, h2]
end

theorem splitOnChar_no_sep {sep : Char} :
    ∀ {a : List Char}, sep ∉ a → splitOnChar sep a = [a] := by
  intro a
  induction a with
  | nil => intro _; rfl
  | cons c rest ih =>
    intro h
    have hc : ¬(c = sep) := fun he => h (by simp [he])
    have hr := ih (fun hm => h (by simp [hm]))
    simp [splitOnChar, hc, hr]

theorem splitOnChar_sep_append {sep : Char} :
    ∀ {a b : List Char}, sep ∉ a →
      splitOnChar sep (a ++ sep :: b) = a :: splitOnChar sep b := by
  intro a
  induction a with
  | nil => intro b _; simp [splitOnChar]
  | cons c rest ih =>
    intro b h
    have hc : ¬(c = sep) := fun he => h (by simp [he])
    have hr := ih (b := b) (fun hm => h (by simp [hm]))
    simp [splitOnChar, hc, hr]

/-- C8: the installation path is the manifest directory joined with
`node_modules` and the package name (a scoped name contributing its
slash-separated segments, two for `@scope/name`); a file's size is
formatted directly; a clean directory yields the formatted recursive
sum of all contained file sizes; a missing path, a path that is
neither file nor directory, or a stat/read failure anywhere in the
traversal yields `"—"` with no partial total. -/
theorem localModeSize_spec :
    (∀ name : String, strStartsWith ("@") name = false →
      installParts name = [name]) ∧
    (∀ scope pkg : String, '/' ∉ scope.data → '/' ∉ pkg.data →
      installParts ("@" ++ scope ++ "/" ++ pkg) = ["@" ++ scope, pkg]) ∧
    (∀ (fsRoot : FsNode) (cache : Cache) (docDir : List String)
        (name : String) (n : Nat),
      cache.lookup (nodeModulesKey docDir name) = none →
      statAt fsRoot (docDir ++ "node_modules" :: installParts name) =
        some (.file n) →
      (getNodeModulesPackageSize fsRoot cache docDir name).1 = formatBytes n) ∧
    (∀ (fsRoot : FsNode) (cache : Cache) (docDir : List String)
        (name : String) (es : FsEntries),
      cache.lookup (nodeModulesKey docDir name) = none →
      statAt fsRoot (docDir ++ "node_modules" :: installParts name) =
        some (.dir es) →
      cleanEntries es = true →
      (getNodeModulesPackageSize fsRoot cache docDir name).1 =
        formatBytes (entriesTotal es)) ∧
    (∀ (fsRoot : FsNode) (cache : Cache) (docDir : List String)
        (name : String),
      cache.lookup (nodeModulesKey docDir name) = none →
      statAt fsRoot (docDir ++ "node_modules" :: installParts name) = none →
      (getNodeModulesPackageSize fsRoot cache docDir name).1 = "—") ∧
    (∀ (fsRoot : FsNode) (cache : Cache) (docDir : List String)
        (name : String) (n : Nat),
      cache.lookup (nodeModulesKey docDir name) = none →
      statAt fsRoot (docDir ++ "node_modules" :: installParts name) =
        some (.special n) →
      (getNodeModulesPackageSize fsRoot cache docDir name).1 = "—") ∧
    (∀ (fsRoot : FsNode) (cache : Cache) (docDir : List String)
        (name : String) (es : FsEntries),
      cache.lookup (nodeModulesKey docDir name) = none →
      statAt fsRoot (docDir ++ "node_modules" :: installParts name) =
        some (.dir es) →
      getDirSizeEntries es = none →
      (getNodeModulesPackageSize fsRoot cache docDir name).1 = "—") := by
  have hunfold : ∀ (fsRoot : FsNode) (cache : Cache) (docDir : List String)
      (name : String),
      cache.lookup (nodeModulesKey docDir name) = none →
      getNodeModulesPackageSize fsRoot cache docDir name =
        (match statAt fsRoot (docDir ++ "node_modules" :: installParts name) with
         | some (.file n) => formatBytes n
         | some (.dir es) =>
           match getDirSizeEntries es with
           | some total => formatBytes total
           | none => "—"
         | _ => "—",
         (nodeModulesKey docDir name,
          match statAt fsRoot (docDir ++ "node_modules" :: installParts name) with
          | some (.file n) => formatBytes n
          | some (.dir es) =>
            match getDirSizeEntries es with
            | some total => formatBytes total
            | none => "—"
          | _ => "—") :: cache, true) := by
    intro fsRoot cache docDir name h
    unfold nodeModulesKey at h
    unfold getNodeModulesPackageSize
    simp only [h]
    rfl
  refine ⟨fun name h => ?_, fun scope pkg hs hp => ?_, ?_, ?_, ?_, ?_, ?_⟩
  · simp [installParts, h]
  · have hpref : strStartsWith ("@") ("@" ++ scope ++ "/" ++ pkg) = true := by
      simp [strStartsWith, String.data_append, List.isPrefixOf]
    have hdata : ("@" ++ scope ++ "/" ++ pkg).data =
        ('@' :: scope.data) ++ '/' :: pkg.data := by
      simp [String.data_append]
    have hnos : '/' ∉ '@' :: scope.data := by
      intro hm
      rcases List.mem_cons.mp hm with he | hm2
      · exact absurd he.symm (by decide)
      · exact hs hm2
    rw [installParts, if_pos hpref, hdata,
      splitOnChar_sep_append hnos, splitOnChar_no_sep hp]
    have g1 : List.asString ('@' :: scope.data) = "@" ++ scope := by
      apply String.ext
      simp only [String.data_append]
      rfl
    have g2 : List.asString pkg.data = pkg := by
      apply String.ext
      rfl
    simp [g1, g2]
  · intro fsRoot cache docDir name n hmiss hstat
    rw [hunfold fsRoot cache docDir name hmiss, hstat]
  · intro fsRoot cache docDir name es hmiss hstat hclean
    rw [hunfold fsRoot cache docDir name hmiss, hstat]
    simp [getDirSizeEntries_clean es hclean]
  · intro fsRoot cache docDir name hmiss hstat
    rw [hunfold fsRoot cache docDir name hmiss, hstat]
  · intro fsRoot cache docDir name n hmiss hstat
    rw [hunfold fsRoot cache docDir name hmiss, hstat]
  · intro fsRoot cache docDir name es hmiss hstat hfail
    rw [hunfold fsRoot cache docDir name hmiss, hstat]
    simp [hfail]

/-- Witness: the local mode at a concrete tree — scoped path split, a
clean directory sum, a missing path, and a broken traversal. -/
theorem localModeSize_spec_witness :
    installParts ("@" ++ "s" ++ "/" ++ "p") = ["@" ++ "s", "p"] ∧
    (getNodeModulesPackageSize sampleTree [] ["d"] "lp").1 =
      formatBytes (entriesTotal sampleEntries) ∧
    (getNodeModulesPackageSize (.dir .nil) [] ["d"] "gone").1 = "—" ∧
    (getNodeModulesPackageSize brokenTree [] ["d"] "bk").1 = "—" :=
  ⟨localModeSize_spec.2.1 "s" "p" (by decide) (by decide),
   localModeSize_spec.2.2.2.1 sampleTree [] ["d"] "lp" sampleEntries
     rfl rfl (by decide),
   localModeSize_spec.2.2.2.2.1 (.dir .nil) [] ["d"] "gone" rfl rfl,
   localModeSize_spec.2.2.2.2.2.2 brokenTree [] ["d"] "bk"
     (.cons "c" .bad .nil) rfl rfl rfl⟩

/-! ## C9: disabled configuration flag -/

/-- C9: with the configuration flag disabled, a triggered update
performs no parsing and no resolution (the whole state, both caches
included, is returned untouched and no registry request is issued) and
emits no paint or clear call, so applying its call list leaves every
previously painted label exactly as it was. -/
theorem config_disabled_noop (isPkg : Bool) (parse : String → Option Json)
    (text : String) (net : Net) (fsRoot : FsNode) (docDir : List String)
    (st : RenderState) (labels : LabelState) :
    updateDecorations false isPkg parse text net fsRoot docDir st =
      (st, [], []) ∧
    applyCalls labels
      (updateDecorations false isPkg parse text net fsRoot docDir st).2.1 =
      labels :=
  ⟨rfl, rfl⟩

/-! ## C7: grouped painting and stale-group clearing -/

theorem mem_insertOnce {acc : List String} {c x : String} :
    x ∈ insertOnce acc c ↔ x ∈ acc ∨ x = c := by
  unfold insertOnce
  by_cases hc : c ∈ acc
  · have hb : acc.contains c = true := by simpa using hc
    rw [if_pos hb]
    constructor
    · exact Or.inl
    · rintro (hx | rfl)
      · exact hx
      · exact hc
  · have hb : ¬acc.contains c = true := by simpa using hc
    rw [if_neg hb]
    simp

theorem nodup_insertOnce {acc : List String} {c : String}
    (h : acc.Nodup) : (insertOnce acc c).Nodup := by
  unfold insertOnce
  by_cases hc : c ∈ acc
  · have hb : acc.contains c = true := by simpa using hc
    rw [if_pos hb]
    exact h
  · have hb : ¬acc.contains c = true := by simpa using hc
    rw [if_neg hb]
    refine List.Nodup.append h (by simp) ?_
    intro x hx hxc
    rw [List.mem_singleton] at hxc
    subst hxc
    exact hc hx

theorem mem_foldl_insertOnce :
    ∀ (l acc : List String) (x : String),
      x ∈ l.foldl insertOnce acc ↔ x ∈ acc ∨ x ∈ l := by
  intro l
  induction l with
  | nil => intro acc x; simp
  | cons c l ih =>
    intro acc x
    rw [List.foldl_cons, ih (insertOnce acc c) x, mem_insertOnce]
    constructor
    · rintro ((hx | rfl) | hx)
      · exact Or.inl hx
      · exact Or.inr (by simp)
      · exact Or.inr (by simp [hx])
    · rintro (hx | hx)
      · exact Or.inl (Or.inl hx)
      · rcases List.mem_cons.mp hx with rfl | hx2
        · exact Or.inl (Or.inr rfl)
        · exact Or.inr hx2

theorem nodup_foldl_insertOnce :
    ∀ (l acc : List String), acc.Nodup → (l.foldl insertOnce acc).Nodup := by
  intro l
  induction l with
  | nil => intro acc h; simpa using h
  | cons c l ih =>
    intro acc h
    rw [List.foldl_cons]
    exact ih (insertOnce acc c) (nodup_insertOnce h)

theorem mem_firstOccurrences {l : List String} {x : String} :
    x ∈ firstOccurrences l ↔ x ∈ l := by
  unfold firstOccurrences
  rw [mem_foldl_insertOnce l [] x]
  simp

theorem nodup_firstOccurrences {l : List String} :
    (firstOccurrences l).Nodup :=
  nodup_foldl_insertOnce l [] List.nodup_nil

theorem callsFor_keyed_none {keys : List String} {f : String → List Range}
    {s : String} (hs : s ∉ keys) :
    callsFor (keys.map (fun k => (k, f k))) s = [] := by
  induction keys with
  | nil => rfl
  | cons k ks ih =>
    have hk : ¬(k == s) = true := by
      intro hb
      exact hs (by simp [beq_iff_eq.mp hb])
    simp only [callsFor, List.map_cons, List.filterMap_cons, if_neg hk]
    exact ih (fun hm => hs (List.mem_cons_of_mem _ hm))

theorem callsFor_keyed {keys : List String} {f : String → List Range}
    {s : String} (hnd : keys.Nodup) (hs : s ∈ keys) :
    callsFor (keys.map (fun k => (k, f k))) s = [f s] := by
  induction keys with
  | nil => cases hs
  | cons k ks ih =>
    rcases List.mem_cons.mp hs with rfl | hmem
    · have htail : callsFor (ks.map (fun k => (k, f k))) s =
          ([] : List (List Range)) :=
        callsFor_keyed_none (List.nodup_cons.mp hnd).1
      simp only [callsFor, List.map_cons, List.filterMap_cons, beq_self_eq_true,
        if_pos rfl]
      simpa [callsFor] using htail
    · have hk : ¬(k == s) = true := by
        intro hb
        have : k = s := beq_iff_eq.mp hb
        exact (List.nodup_cons.mp hnd).1 (this ▸ hmem)
      simp only [callsFor, List.map_cons, List.filterMap_cons, if_neg hk]
      exact ih (List.nodup_cons.mp hnd).2 hmem

theorem callsFor_append (a b : List PaintCall) (s : String) :
    callsFor (a ++ b) s = callsFor a s ++ callsFor b s := by
  simp [callsFor]

/-- The core of the render step: one paint call per display-string
group carrying that group's anchors, and one empty-anchor clear for
every known type absent from the pass. -/
theorem paintCalls_spec (st : RenderState) (pairs : List (String × Range))
    (hnd : st.decoTypes.Nodup) :
    (∀ s, s ∈ pairs.map (fun p => p.1) →
      callsFor (paintCalls st pairs) s = [anchorsFor pairs s]) ∧
    (∀ t, t ∈ st.decoTypes → t ∉ pairs.map (fun p => p.1) →
      callsFor (paintCalls st pairs) t = [[]]) := by
  have hkeys : (firstOccurrences (pairs.map (fun p => p.1))).Nodup :=
    nodup_firstOccurrences
  have hgroups : groupBySize pairs =
      (firstOccurrences (pairs.map (fun p => p.1))).map
        (fun s => (s, anchorsFor pairs s)) := rfl
  have hdeco : (decoAfter st (groupBySize pairs)).Nodup :=
    nodup_foldl_insertOnce _ _ hnd
  have husedmem : ∀ x, x ∈ (groupBySize pairs).map (fun g => g.1) ↔
      x ∈ pairs.map (fun p => p.1) := by
    intro x
    rw [hgroups]
    simp only [List.map_map]
    constructor
    · intro hx
      rcases List.mem_map.mp hx with ⟨k, hk, he⟩
      exact mem_firstOccurrences.mp (by simpa using he ▸ hk)
    · intro hx
      exact List.mem_map.mpr ⟨x, mem_firstOccurrences.mpr hx, rfl⟩
  constructor
  · intro s hs
    rw [paintCalls, callsFor_append]
    have h1 : callsFor (groupBySize pairs) s = [anchorsFor pairs s] := by
      rw [hgroups]
      exact callsFor_keyed hkeys (mem_firstOccurrences.mpr hs)
    have h2 : callsFor
        (((decoAfter st (groupBySize pairs)).filter
          (fun t => !((groupBySize pairs).map (fun g => g.1)).contains t)).map
            (fun t => (t, ([] : List Range)))) s = [] := by
      apply callsFor_keyed_none
      intro hmem
      have hflt := (List.mem_filter.mp hmem).2
      have hus : s ∈ (groupBySize pairs).map (fun g => g.1) :=
        (husedmem s).mpr hs
      have hnc : s ∉ (groupBySize pairs).map (fun g => g.1) := by
        simpa using hflt
      exact hnc hus
    rw [h1, h2]
    rfl
  · intro t ht hts
    rw [paintCalls, callsFor_append]
    have h1 : callsFor (groupBySize pairs) t = [] := by
      rw [hgroups]
      apply callsFor_keyed_none
      intro hmem
      exact hts (mem_firstOccurrences.mp hmem)
    have h2 : callsFor
        (((decoAfter st (groupBySize pairs)).filter
          (fun t => !((groupBySize pairs).map (fun g => g.1)).contains t)).map
            (fun t => (t, ([] : List Range)))) t = [([] : List Range)] := by
      have hmem : t ∈ (decoAfter st (groupBySize pairs)).filter
          (fun t => !((groupBySize pairs).map (fun g => g.1)).contains t) := by
        apply List.mem_filter.mpr
        refine ⟨?_, ?_⟩
        · unfold decoAfter
          exact (mem_foldl_insertOnce _ _ t).mpr (Or.inl ht)
        · have hnt : t ∉ (groupBySize pairs).map (fun g => g.1) :=
            fun hc => hts ((husedmem t).mp hc)
          simpa using hnt
      exact callsFor_keyed (List.Nodup.filter _ hdeco) hmem
    rw [h1, h2]
    rfl

theorem resolveAll_length (net : Net) (fsRoot : FsNode) (docDir : List String) :
    ∀ (es : List DepEntry) (c : Cache),
      (resolveAll net fsRoot docDir c es).1.length = es.length := by
  intro es
  induction es with
  | nil => intro c; rfl
  | cons e rest ih =>
    intro c
    simp only [resolveAll]
    rcases hro : resolveOne net fsRoot docDir c e with ⟨r, c1⟩
    rcases hra : resolveAll net fsRoot docDir c1 rest with ⟨rs, c2⟩
    have := ih c1
    rw [hra] at this
    simp [this]

/-- C7 counterexample: a pass whose parse yields zero entries returns
on line 232 before painting or clearing anything, so the previously
used group `"2.0 kB"`, although absent from the current pass, is not
cleared — its label lingers.  The claim requires the clearing for
"every current pass, including one whose parse yields zero
entries". -/
theorem zero_entry_pass_counterexample :
    updateDecorations true true (fun _ => some (.obj [])) "{}" (fun _ => none)
        (.dir .nil) [] ⟨[], ["2.0 kB"]⟩ = (⟨[], ["2.0 kB"]⟩, [], []) ∧
    "2.0 kB" ∈ (⟨[], ["2.0 kB"]⟩ : RenderState).decoTypes :=
  ⟨rfl, by simp⟩

/-- C7 (amended): after every resolution pass with at least one parsed
entry, labels are grouped by identical display string with exactly one
paint call per group carrying that group's anchor set, and every
previously used display-string group absent from the current pass is
cleared with an empty anchor set; a pass whose parse yields zero
entries, however, issues no paint or clear calls at all and leaves the
state untouched. -/
theorem rendering_grouped_and_cleared (parse : String → Option Json)
    (text : String) (net : Net) (fsRoot : FsNode) (docDir : List String)
    (st : RenderState) (hnd : st.decoTypes.Nodup)
    (hne : allEntriesOf parse text ≠ []) :
    (updateDecorations true true parse text net fsRoot docDir st).2.1 =
      paintCalls st ((passSizes net fsRoot docDir st parse text).zip
        ((allEntriesOf parse text).map (fun e => e.range))) ∧
    (∀ s, s ∈ passSizes net fsRoot docDir st parse text →
      callsFor (updateDecorations true true parse text net fsRoot docDir st).2.1 s =
        [anchorsFor ((passSizes net fsRoot docDir st parse text).zip
          ((allEntriesOf parse text).map (fun e => e.range))) s]) ∧
    (∀ t, t ∈ st.decoTypes →
      t ∉ passSizes net fsRoot docDir st parse text →
      callsFor (updateDecorations true true parse text net fsRoot docDir st).2.1 t =
        [[]]) ∧
    (∀ (parse2 : String → Option Json) (text2 : String),
      allEntriesOf parse2 text2 = [] →
      updateDecorations true true parse2 text2 net fsRoot docDir st =
        (st, [], [])) := by
  have hcalls : ∀ (parse2 : String → Option Json) (text2 : String),
      allEntriesOf parse2 text2 ≠ [] →
      (updateDecorations true true parse2 text2 net fsRoot docDir st).2.1 =
        paintCalls st ((passSizes net fsRoot docDir st parse2 text2).zip
          ((allEntriesOf parse2 text2).map (fun e => e.range))) := by
    intro parse2 text2 hne2
    unfold updateDecorations passSizes
    rcases hpd : parseDepsFromDocument parse2 text2 with ⟨deps, devs⟩
    have hall : allEntriesOf parse2 text2 = deps ++ devs := by
      unfold allEntriesOf
      rw [hpd]
    have hie : (deps ++ devs).isEmpty = false := by
      rcases h : (deps ++ devs).isEmpty with _ | _
      · rfl
      · exact absurd (hall.trans (List.isEmpty_iff.mp h)) hne2
    simp only [hpd, Bool.not_true, Bool.false_eq_true, if_false, hie, hall]
  have hsizes : ((passSizes net fsRoot docDir st parse text).zip
        ((allEntriesOf parse text).map (fun e => e.range))).map (fun p => p.1) =
      passSizes net fsRoot docDir st parse text := by
    apply List.map_fst_zip
    unfold passSizes
    rw [resolveAll_length net fsRoot docDir (allEntriesOf parse text) st.sizeCache]
    simp
  have hspec := paintCalls_spec st
    ((passSizes net fsRoot docDir st parse text).zip
      ((allEntriesOf parse text).map (fun e => e.range))) hnd
  refine ⟨hcalls parse text hne, fun s hs => ?_, fun t ht hts => ?_,
    fun parse2 text2 hz => ?_⟩
  · rw [hcalls parse text hne]
    exact hspec.1 s (by rw [hsizes]; exact hs)
  · rw [hcalls parse text hne]
    exact hspec.2 t ht (by rw [hsizes]; exact hts)
  · unfold updateDecorations
    rcases hpd : parseDepsFromDocument parse2 text2 with ⟨deps, devs⟩
    have hall : deps ++ devs = [] := by
      have : allEntriesOf parse2 text2 = deps ++ devs := by
        unfold allEntriesOf
        rw [hpd]
      rw [← this, hz]
    have hie : (deps ++ devs).isEmpty = true := by
      rw [hall]
      rfl
    simp [hpd, hie]

/-- Witness: the amended rendering claim at a concrete pass — one
grouped paint call for the sentinel group, and a clear for the stale
`"9 B"` group. -/
theorem rendering_grouped_and_cleared_witness :
    callsFor (updateDecorations true true parseW textW (fun _ => none)
        (.dir .nil) [] ⟨[], ["9 B"]⟩).2.1 ("—") =
      [anchorsFor ((passSizes (fun _ => none) (.dir .nil) [] ⟨[], ["9 B"]⟩ parseW textW).zip
        ((allEntriesOf parseW textW).map (fun e => e.range))) ("—")] ∧
    callsFor (updateDecorations true true parseW textW (fun _ => none)
        (.dir .nil) [] ⟨[], ["9 B"]⟩).2.1 ("9 B") = [[]] :=
  ⟨(rendering_grouped_and_cleared parseW textW (fun _ => none) (.dir .nil) []
      ⟨[], ["9 B"]⟩ (by simp) (by decide)).2.1 ("—") (by decide),
   (rendering_grouped_and_cleared parseW textW (fun _ => none) (.dir .nil) []
      ⟨[], ["9 B"]⟩ (by simp) (by decide)).2.2.1 ("9 B") (by simp) (by decide)⟩

/-! ## C2: registry-mode wildcard resolution -/

/-- C2 counterexample: the non-exact spec `beta` names a version
present in the returned versions map, so the claim requires that
version's size to be used — `beta` has no `dist`, hence `"—"`.  The
code instead tests `versions[versionToUse]` for truthiness, finds the
`null` entry falsy, falls back to `latest`, and returns its
`"2.0 kB"`. -/
theorem wildcard_falsy_entry_counterexample :
    (fetchSize netC [] "pkg@beta").1 = "2.0 kB" ∧
    netC (.meta ("pkg")) = some ⟨true, some bodyC⟩ ∧
    jGetField bodyC ("versions") = some (.obj versionsC) ∧
    versionsC.lookup ("beta") = some .null ∧
    isExactVersion ("beta") = false := by
  refine ⟨by decide, rfl, rfl, rfl, by decide⟩

theorem fetchSize_wildcard (net : Net) (cache : Cache) (spec name w : String)
    (hmiss : cache.lookup spec = none)
    (hp : parsePackageSpec spec = (name, w)) (hn : name ≠ "")
    (hx : useExact w = false) :
    fetchSize net cache spec =
      (metaResult net name w, (spec, metaResult net name w) :: cache,
       [Request.meta name]) := by
  have hnb : (name == "") = false := beq_eq_false_iff_ne.mpr hn
  unfold fetchSize
  simp only [hmiss, hp, hnb, Bool.false_eq_true, if_false, hx]

theorem metaVersions_star (versions : Json) (L : String) :
    metaVersions versions (.val (.str L)) "*" = sizeOfSelected versions L := by
  unfold metaVersions sizeOfSelected
  by_cases hL : L = ""
  · subst hL
    simp [jsValTruthy, jTruthy, jsValKey, jsonToKey]
  · have hLb : (L != "") = true := by simpa using hL
    by_cases hpv : jsValTruthy (jsProp versions L) = true
    · simp [jsValTruthy, jTruthy, hLb, jsValKey, jsonToKey, hpv]
    · simp [jsValTruthy, jTruthy, hLb, jsValKey, jsonToKey, hpv]

theorem metaVersions_named (versions : Json) (latest : JsVal) (w : String)
    (hw1 : w ≠ "") (hw2 : w ≠ "*")
    (htr : jsValTruthy (jsProp versions w) = true) :
    metaVersions versions latest w = sizeOfSelected versions w := by
  have hw1b : (w == "") = false := beq_eq_false_iff_ne.mpr hw1
  have hw2b : (w == "*") = false := beq_eq_false_iff_ne.mpr hw2
  have hc1 : (w == "" || w == "*") = false := by rw [hw1b, hw2b]; rfl
  have hvt : jsValTruthy (JsVal.val (Json.str w)) = true := by
    simp [jsValTruthy, jTruthy, hw1]
  unfold metaVersions sizeOfSelected
  simp only [hc1, Bool.false_eq_true, if_false, hvt, if_true, jsValKey,
    jsonToKey, htr, eq_self_iff_true]

theorem metaVersions_fallback (versions : Json) (L w : String)
    (hw1 : w ≠ "") (hw2 : w ≠ "*")
    (htr : jsValTruthy (jsProp versions w) = false) :
    metaVersions versions (.val (.str L)) w = sizeOfSelected versions L := by
  have hw1b : (w == "") = false := beq_eq_false_iff_ne.mpr hw1
  have hw2b : (w == "*") = false := beq_eq_false_iff_ne.mpr hw2
  have hc1 : (w == "" || w == "*") = false := by rw [hw1b, hw2b]; rfl
  have hvt : jsValTruthy (JsVal.val (Json.str w)) = true := by
    simp [jsValTruthy, jTruthy, hw1]
  unfold metaVersions sizeOfSelected
  simp only [hc1, Bool.false_eq_true, if_false, hvt, if_true, jsValKey,
    jsonToKey, htr, eq_self_iff_true]

/-- C2 (amended): a registry-mode resolution with a non-exact version
spec (including `'*'`) fires exactly one full-metadata request; a
rejected fetch, non-success response, malformed body or missing
`versions` field yields `"—"`; with an object `versions` map, the
spec `'*'` resolves the version named by the `latest` dist-tag, a
non-exact spec naming a version whose map entry is truthy uses that
entry instead, and a spec whose entry is absent or falsy (e.g. `null`)
falls back to `latest`; the selected entry's `dist.unpackedSize` is
formatted, with any missing or non-numeric size yielding `"—"`. -/
theorem registry_wildcard_resolution :
    (∀ (net : Net) (cache : Cache) (spec name w : String),
      cache.lookup spec = none → parsePackageSpec spec = (name, w) →
      name ≠ "" → useExact w = false →
      fetchSize net cache spec =
        (metaResult net name w, (spec, metaResult net name w) :: cache,
         [Request.meta name])) ∧
    (∀ (net : Net) (name w : String),
      net (.meta name) = none → metaResult net name w = "—") ∧
    (∀ (net : Net) (name w : String) (r : HttpResp),
      net (.meta name) = some r → r.ok = false →
      metaResult net name w = "—") ∧
    (∀ (net : Net) (name w : String),
      net (.meta name) = some ⟨true, none⟩ → metaResult net name w = "—") ∧
    (∀ (net : Net) (name w : String) (data : Json),
      net (.meta name) = some ⟨true, some data⟩ →
      jsProp data ("versions") = .undefined → metaResult net name w = "—") ∧
    (∀ (net : Net) (name w : String) (data : Json)
        (vf : List (String × Json)),
      net (.meta name) = some ⟨true, some data⟩ →
      jsProp data ("versions") = .val (.obj vf) →
      metaResult net name w = metaVersions (.obj vf) (latestTag data) w) ∧
    (∀ (versions : Json) (L : String),
      metaVersions versions (.val (.str L)) "*" = sizeOfSelected versions L) ∧
    (∀ (versions : Json) (latest : JsVal) (w : String),
      w ≠ "" → w ≠ "*" → jsValTruthy (jsProp versions w) = true →
      metaVersions versions latest w = sizeOfSelected versions w) ∧
    (∀ (versions : Json) (L w : String),
      w ≠ "" → w ≠ "*" → jsValTruthy (jsProp versions w) = false →
      metaVersions versions (.val (.str L)) w = sizeOfSelected versions L) ∧
    (∀ (versions : Json) (key : String) (n : Int),
      distSize (jsProp versions key) = .val (.num n) →
      sizeOfSelected versions key = formatBytes n) ∧
    (∀ (versions : Json) (key : String),
      (∀ n : Int, distSize (jsProp versions key) ≠ .val (.num n)) →
      sizeOfSelected versions key = "—") := by
  refine ⟨fetchSize_wildcard, fun net name w h => ?_, fun net name w r h hok => ?_,
    fun net name w h => ?_, fun net name w data h hv => ?_,
    fun net name w data vf h hv => ?_, metaVersions_star, metaVersions_named,
    metaVersions_fallback, fun versions key n h => ?_, fun versions key h => ?_⟩
  · unfold metaResult
    rw [h]
  · unfold metaResult
    rw [h]
    simp [hok]
  · unfold metaResult
    rw [h]
    rfl
  · unfold metaResult
    rw [h]
    simp [hv]
  · unfold metaResult
    rw [h]
    simp [hv]
  · unfold sizeOfSelected
    rw [h]
  · unfold sizeOfSelected
    rcases hd : distSize (jsProp versions key) with _ | j | _
    · rfl
    · rcases j with _ | b | n | s | es | fields
      · rfl
      · rfl
      · exact absurd hd (h n)
      · rfl
      · rfl
      · rfl
    · rfl

/-- Witness: the amended resolution claim at the counterexample
registry — the one metadata request, the latest-tag lookup for `'*'`,
the falsy-entry fallback, and the concrete formatted result. -/
theorem registry_wildcard_resolution_witness :
    fetchSize netC [] "pkg" =
      (metaResult netC "pkg" "*", ("pkg", metaResult netC "pkg" "*") :: [],
       [Request.meta ("pkg")]) ∧
    metaResult netC "pkg" "*" =
      metaVersions (.obj versionsC) (latestTag bodyC) "*" ∧
    metaVersions (.obj versionsC) (.val (.str ("1.0.0"))) "*" =
      sizeOfSelected (.obj versionsC) ("1.0.0") ∧
    metaVersions (.obj versionsC) (.val (.str ("1.0.0"))) "beta" =
      sizeOfSelected (.obj versionsC) ("1.0.0") ∧
    sizeOfSelected (.obj versionsC) ("1.0.0") = formatBytes 2048 ∧
    metaResult (fun _ => none) "pkg" "*" = "—" :=
  ⟨registry_wildcard_resolution.1 netC [] "pkg" "pkg" "*" rfl rfl
     (by decide) rfl,
   registry_wildcard_resolution.2.2.2.2.2.1 netC "pkg" "*" bodyC versionsC
     rfl rfl,
   registry_wildcard_resolution.2.2.2.2.2.2.1 (.obj versionsC) "1.0.0",
   registry_wildcard_resolution.2.2.2.2.2.2.2.2.1 (.obj versionsC) "1.0.0"
     "beta" (by decide) (by decide) rfl,
   registry_wildcard_resolution.2.2.2.2.2.2.2.2.2.1 (.obj versionsC)
     "1.0.0" 2048 rfl,
   registry_wildcard_resolution.2.1 (fun _ => none) "pkg" "*" rfl⟩

end PkgSize
